import Mathlib

/-!
Shallow embedding of the `rsdbgen` schema-to-type generator
(`src/main.rs`).  The core pipeline is: fetch column metadata rows
(external collaborator, modelled as the input list), group adjacent rows
by table name (itertools `group_by`), filter out the reserved migration
table, and emit one record-type definition per remaining group, mapping
each Postgres native type to a Rust type and wrapping nullable columns
in `Option`.  A panic in the Rust code (unknown type) aborts the whole
run before anything is printed; it is modelled as `Except.error`.
-/

/-- One row of `information_schema.columns`, as selected by `do_it`
(struct `TableDefinition` in `src/main.rs`). -/
structure TableDefinition where
  table_name : String
  column_name : String
  udt_name : String
  is_nullable : Bool
  ordinal_position : Int
deriving DecidableEq

/-- ASCII lower-to-upper case pairs, used to model case conversion. -/
def asciiCaseTable : List (Char × Char) :=
  [('a', 'A'), ('b', 'B'), ('c', 'C'), ('d', 'D'), ('e', 'E'), ('f', 'F'),
   ('g', 'G'), ('h', 'H'), ('i', 'I'), ('j', 'J'), ('k', 'K'), ('l', 'L'),
   ('m', 'M'), ('n', 'N'), ('o', 'O'), ('p', 'P'), ('q', 'Q'), ('r', 'R'),
   ('s', 'S'), ('t', 'T'), ('u', 'U'), ('v', 'V'), ('w', 'W'), ('x', 'X'),
   ('y', 'Y'), ('z', 'Z')]

/-- Uppercase an ASCII letter; leave every other character unchanged. -/
def toUpperAscii (c : Char) : Char :=
  match asciiCaseTable.find? (fun p => p.1 == c) with
  | some p => p.2
  | none => c

/-- Character-level worker for class-casing.  The flag records whether
the next character starts a word (and is therefore capitalized);
underscores are dropped and start a new word. -/
def ccAux : Bool → List Char → List Char
  | _, [] => []
  | atStart, c :: cs =>
    if c = '_' then ccAux true cs
    else (if atStart then toUpperAscii c else c) :: ccAux false cs

/-- Modelled from the spec: `to_class_case` comes from the external
`inflector` crate, whose source is not part of this repository.  The
spec describes it as the deterministic class-casing transformation
turning a table identifier into a type name (e.g. `customer_orders`
becomes `CustomerOrders`): underscores are dropped and each word's
initial character is capitalized. -/
def to_class_case (s : String) : String :=
  String.mk (ccAux true s.data)

/-- `input_row_struct_name` from `src/main.rs`: class-cased table name
with the fixed `Input` suffix appended. -/
def input_row_struct_name (table_name : String) : String :=
  to_class_case table_name ++ "Input"

/-- `row_struct_name` from `src/main.rs`: the class-cased table name. -/
def row_struct_name (table_name : String) : String :=
  to_class_case table_name

/-- `pg_type_to_rs_type` from `src/main.rs`.  The Rust function panics
on an unrecognized native type name with the message
`Unknown type: {pg_type}`; the panic is modelled as `Except.error` with
that message. -/
def pg_type_to_rs_type (pg_type : String) : Except String String :=
  match pg_type with
  | "int8" => .ok "i64"
  | "int4" => .ok "i32"
  | "int2" => .ok "i16"
  | "text" => .ok "String"
  | "varchar" => .ok "String"
  | "jsonb" => .ok "sqlx::Json"
  | "timestamptz" => .ok "chrono::DateTime<chrono::Utc>"
  | "date" => .ok "chrono::NaiveDate"
  | "float4" => .ok "f32"
  | "float8" => .ok "f64"
  | "uuid" => .ok "uuid::Uuid"
  | "boolean" => .ok "bool"
  | "bytea" => .ok "Vec<u8>"
  | _ => .error ("Unknown type: " ++ pg_type)

/-- The thirteen native type names recognized by `pg_type_to_rs_type`. -/
def pgVocab : List String :=
  ["int8", "int4", "int2", "text", "varchar", "jsonb", "timestamptz",
   "date", "float4", "float8", "uuid", "boolean", "bytea"]

/-- `should_emit` from `src/main.rs`: every table is emitted except the
reserved sqlx migration-bookkeeping table. -/
def should_emit (table_name : String) : Bool :=
  table_name != "_sqlx_migrations"

/-- One field of an emitted struct.  The Rust source passes the codegen
crate the string `pub {column_name}` as the field name; the constant
`pub` visibility marker is rendering detail, so the field is modelled as
the column name plus the computed type string. -/
structure StructField where
  name : String
  ty : String
deriving DecidableEq

/-- One emitted struct (a `codegen::Struct` added to the scope). -/
structure StructDef where
  name : String
  fields : List StructField
deriving DecidableEq

/-- The field list built by the loop in `add_structs_for_table`
(`src/main.rs`): for each `(column_name, udt_name, is_nullable)` triple,
map the native type and wrap it in `Option<...>` exactly when the
column is nullable; an unknown type aborts (panic, modelled as error)
at the first failing column. -/
def fieldsFor : List (String × String × Bool) → Except String (List StructField)
  | [] => .ok []
  | c :: cs =>
    match pg_type_to_rs_type c.2.1 with
    | .error e => .error e
    | .ok t =>
      match fieldsFor cs with
      | .error e => .error e
      | .ok fs =>
        .ok ((if !c.2.2 then StructField.mk c.1 t
              else StructField.mk c.1 ("Option<" ++ t ++ ">")) :: fs)

/-- `add_structs_for_table` from `src/main.rs`: one public struct named
by `row_struct_name`, with one field per column in order.  (The
input-variant struct and the insert/select generators are commented out
in the source.) -/
def add_structs_for_table (table_name : String)
    (columns : List (String × String × Bool)) : Except String StructDef :=
  match fieldsFor columns with
  | .error e => .error e
  | .ok fs => .ok (StructDef.mk (row_struct_name table_name) fs)

/-- Itertools `group_by` as used in `do_it`: chunk adjacent rows that
share a table name, keyed by that name. -/
def groupByAdjacent : List TableDefinition → List (String × List TableDefinition)
  | [] => []
  | t :: ts =>
    match groupByAdjacent ts with
    | [] => [(t.table_name, [t])]
    | (k, g) :: rest =>
      if t.table_name = k then (t.table_name, t :: g) :: rest
      else (t.table_name, [t]) :: (k, g) :: rest

/-- The per-group loop body of `do_it`: skip filtered tables, otherwise
add the struct for the group's columns to the scope; a panic in
`add_structs_for_table` aborts the whole run (nothing is printed). -/
def emitGroups : List (String × List TableDefinition) → List StructDef →
    Except String (List StructDef)
  | [], scope => .ok scope
  | g :: gs, scope =>
    if should_emit g.1 then
      match add_structs_for_table g.1
          (g.2.map (fun c => (c.column_name, c.udt_name, c.is_nullable))) with
      | .error e => .error e
      | .ok s => emitGroups gs (scope ++ [s])
    else emitGroups gs scope

/-- The core of `do_it` from `src/main.rs`, after the rows have been
fetched: group the rows by adjacent table name and emit one struct per
non-filtered group.  The returned list is the scope printed at the very
end of the run; on error nothing at all is printed. -/
def do_it (tables : List TableDefinition) : Except String (List StructDef) :=
  emitGroups (groupByAdjacent tables) []

/-- First-seen deduplication of a list of names, used to state the
ordering property: the order in which table names first appear. -/
def firstSeen : List String → List String
  | [] => []
  | a :: l => a :: firstSeen (l.filter (fun b => b != a))
termination_by l => l.length
decreasing_by
  simp only [List.length_cons]
  exact Nat.lt_succ_of_le (List.length_filter_le _ _)

/-- Projection of a metadata row onto every attribute except
`ordinal_position`, used to state that the output never inspects the
ordinal positions. -/
def eraseOrdinal (t : TableDefinition) : String × String × String × Bool :=
  (t.table_name, t.column_name, t.udt_name, t.is_nullable)

theorem toUpperAscii_idem (c : Char) : toUpperAscii (toUpperAscii c) = toUpperAscii c := by
  cases hf : asciiCaseTable.find? (fun p => p.1 == c) with
  | none =>
    have hc : toUpperAscii c = c := by unfold toUpperAscii; rw [hf]
    rw [hc, hc]
  | some p =>
    have hc : toUpperAscii c = p.2 := by unfold toUpperAscii; rw [hf]
    rw [hc]
    have hp : p ∈ asciiCaseTable := List.mem_of_find?_eq_some hf
    fin_cases hp <;> rfl

theorem toUpperAscii_ne_underscore (c : Char) (h : c ≠ '_') : toUpperAscii c ≠ '_' := by
  cases hf : asciiCaseTable.find? (fun p => p.1 == c) with
  | none =>
    have hc : toUpperAscii c = c := by unfold toUpperAscii; rw [hf]
    rw [hc]; exact h
  | some p =>
    have hc : toUpperAscii c = p.2 := by unfold toUpperAscii; rw [hf]
    rw [hc]
    have hp : p ∈ asciiCaseTable := List.mem_of_find?_eq_some hf
    fin_cases hp <;> decide

theorem underscore_not_mem_ccAux (l : List Char) : ∀ b : Bool, '_' ∉ ccAux b l := by
  induction l with
  | nil => intro b; simp [ccAux]
  | cons c cs ih =>
    intro b
    unfold ccAux
    by_cases hc : c = '_'
    · simp only [hc, if_pos rfl]
      exact ih true
    · rw [if_neg hc]
      intro hmem
      rcases List.mem_cons.mp hmem with h1 | h2
      · cases b with
        | true => exact toUpperAscii_ne_underscore c hc h1.symm
        | false => exact hc h1.symm
      · exact ih false h2

theorem ccAux_false_id (l : List Char) (h : '_' ∉ l) : ccAux false l = l := by
  induction l with
  | nil => rfl
  | cons c cs ih =>
    have hc : c ≠ '_' := fun hh => h (hh ▸ List.mem_cons_self c cs)
    have hcs : '_' ∉ cs := fun hh => h (List.mem_cons_of_mem c hh)
    unfold ccAux
    rw [if_neg hc]
    simp [ih hcs]

theorem ccAux_underscore (b : Bool) (cs : List Char) :
    ccAux b ('_' :: cs) = ccAux true cs := by
  rw [ccAux, if_pos rfl]

theorem ccAux_cons_true (c : Char) (cs : List Char) (h : c ≠ '_') :
    ccAux true (c :: cs) = toUpperAscii c :: ccAux false cs := by
  rw [ccAux, if_neg h]; rfl

theorem ccAux_cons_false (c : Char) (cs : List Char) (h : c ≠ '_') :
    ccAux false (c :: cs) = c :: ccAux false cs := by
  rw [ccAux, if_neg h]; rfl

theorem ccAux_true_idem (l : List Char) : ccAux true (ccAux true l) = ccAux true l := by
  induction l with
  | nil => rfl
  | cons c cs ih =>
    by_cases hc : c = '_'
    · subst hc
      rw [ccAux_underscore true cs, ih]
    · rw [ccAux_cons_true c cs hc,
        ccAux_cons_true _ _ (toUpperAscii_ne_underscore c hc),
        toUpperAscii_idem, ccAux_false_id _ (underscore_not_mem_ccAux cs false)]

theorem to_class_case_idem (s : String) : to_class_case (to_class_case s) = to_class_case s := by
  show String.mk (ccAux true (ccAux true s.data)) = String.mk (ccAux true s.data)
  rw [ccAux_true_idem]

theorem pg_ok_mem (s r : String) (h : pg_type_to_rs_type s = .ok r) : s ∈ pgVocab := by
  unfold pg_type_to_rs_type at h
  split at h <;> simp_all [pgVocab]

theorem pg_error_eq (s e : String) (h : pg_type_to_rs_type s = .error e) :
    e = "Unknown type: " ++ s := by
  unfold pg_type_to_rs_type at h
  split at h <;> simp_all

theorem pg_cases (s : String) :
    (∃ r, pg_type_to_rs_type s = .ok r) ∨
      pg_type_to_rs_type s = .error ("Unknown type: " ++ s) := by
  cases h : pg_type_to_rs_type s with
  | ok r => exact Or.inl ⟨r, rfl⟩
  | error e => exact Or.inr ((pg_error_eq s e h) ▸ rfl)

theorem pg_not_mem_error (s : String) (h : s ∉ pgVocab) :
    pg_type_to_rs_type s = .error ("Unknown type: " ++ s) := by
  rcases pg_cases s with ⟨r, hr⟩ | he
  · exact absurd (pg_ok_mem s r hr) h
  · exact he

theorem should_emit_of_ne (s : String) (h : s ≠ "_sqlx_migrations") :
    should_emit s = true := by
  unfold should_emit
  simp [bne_iff_ne]
  exact h

theorem option_wrap_ne (b : String) : "Option<" ++ b ++ ">" ≠ b := by
  intro h
  have h2 := congrArg String.length h
  rw [String.length_append, String.length_append] at h2
  have e1 : ("Option<" : String).length = 7 := rfl
  have e2 : (">" : String).length = 1 := rfl
  omega

theorem fieldsFor_ok_mem (cols : List (String × String × Bool)) (fs : List StructField)
    (h : fieldsFor cols = .ok fs) :
    ∀ c ∈ cols, ∃ r, pg_type_to_rs_type c.2.1 = .ok r := by
  induction cols generalizing fs with
  | nil => intro c hc; simp at hc
  | cons c0 cs ih =>
    intro c hc
    unfold fieldsFor at h
    cases hpg : pg_type_to_rs_type c0.2.1 with
    | error e => rw [hpg] at h; simp at h
    | ok t =>
      rw [hpg] at h
      cases hrec : fieldsFor cs with
      | error e => rw [hrec] at h; simp at h
      | ok fs2 =>
        rw [hrec] at h
        rcases List.mem_cons.mp hc with h1 | h2
        · exact ⟨t, h1 ▸ hpg⟩
        · exact ih fs2 hrec c h2

theorem fieldsFor_error (cols : List (String × String × Bool)) (e : String)
    (h : fieldsFor cols = .error e) :
    ∃ c ∈ cols, pg_type_to_rs_type c.2.1 = .error e := by
  induction cols with
  | nil => simp [fieldsFor] at h
  | cons c0 cs ih =>
    unfold fieldsFor at h
    cases hpg : pg_type_to_rs_type c0.2.1 with
    | error e2 =>
      rw [hpg] at h
      simp at h
      exact ⟨c0, List.mem_cons_self c0 cs, h ▸ hpg⟩
    | ok t =>
      rw [hpg] at h
      cases hrec : fieldsFor cs with
      | error e2 =>
        rw [hrec] at h
        simp at h
        rcases ih (h ▸ hrec) with ⟨c, hc, hcerr⟩
        exact ⟨c, List.mem_cons_of_mem c0 hc, hcerr⟩
      | ok fs2 => rw [hrec] at h; simp at h

theorem fieldsFor_names (cols : List (String × String × Bool)) (fs : List StructField)
    (h : fieldsFor cols = .ok fs) :
    fs.map StructField.name = cols.map Prod.fst ∧ fs.length = cols.length := by
  induction cols generalizing fs with
  | nil =>
    simp [fieldsFor] at h
    subst h
    exact ⟨rfl, rfl⟩
  | cons c0 cs ih =>
    unfold fieldsFor at h
    cases hpg : pg_type_to_rs_type c0.2.1 with
    | error e => rw [hpg] at h; simp at h
    | ok t =>
      rw [hpg] at h
      cases hrec : fieldsFor cs with
      | error e => rw [hrec] at h; simp at h
      | ok fs2 =>
        rw [hrec] at h
        simp only [Except.ok.injEq] at h
        rcases ih fs2 hrec with ⟨hn, hl⟩
        subst h
        refine ⟨?_, by simp [hl]⟩
        simp only [List.map_cons, hn]
        congr 1
        split <;> rfl

theorem fieldsFor_nullability (cols : List (String × String × Bool)) (fs : List StructField)
    (h : fieldsFor cols = .ok fs) :
    List.Forall₂ (fun (c : String × String × Bool) (f : StructField) =>
      ∃ base, pg_type_to_rs_type c.2.1 = .ok base ∧
        ((c.2.2 = true ∧ f.ty = "Option<" ++ base ++ ">" ∧ f.ty ≠ base) ∨
         (c.2.2 = false ∧ f.ty = base ∧ f.ty ≠ "Option<" ++ base ++ ">")))
      cols fs := by
  induction cols generalizing fs with
  | nil =>
    simp [fieldsFor] at h
    subst h
    exact List.Forall₂.nil
  | cons c0 cs ih =>
    unfold fieldsFor at h
    cases hpg : pg_type_to_rs_type c0.2.1 with
    | error e => rw [hpg] at h; simp at h
    | ok t =>
      rw [hpg] at h
      cases hrec : fieldsFor cs with
      | error e => rw [hrec] at h; simp at h
      | ok fs2 =>
        rw [hrec] at h
        simp only [Except.ok.injEq] at h
        subst h
        refine List.Forall₂.cons ?_ (ih fs2 hrec)
        refine ⟨t, hpg, ?_⟩
        cases hnul : c0.2.2 with
        | true =>
          left
          refine ⟨rfl, ?_, ?_⟩
          · simp [hnul]
          · intro hh
            simp [hnul] at hh
            exact option_wrap_ne t hh
        | false =>
          right
          refine ⟨rfl, ?_, ?_⟩
          · simp [hnul]
          · intro hh
            simp [hnul] at hh
            exact option_wrap_ne t hh.symm

theorem add_structs_ok (n : String) (cols : List (String × String × Bool)) (s : StructDef)
    (h : add_structs_for_table n cols = .ok s) :
    s.name = row_struct_name n ∧ fieldsFor cols = .ok s.fields := by
  unfold add_structs_for_table at h
  cases hf : fieldsFor cols with
  | error e => rw [hf] at h; simp at h
  | ok fs =>
    rw [hf] at h
    simp only [Except.ok.injEq] at h
    subst h
    exact ⟨rfl, rfl⟩

theorem add_structs_error (n : String) (cols : List (String × String × Bool)) (e : String)
    (h : add_structs_for_table n cols = .error e) :
    fieldsFor cols = .error e := by
  unfold add_structs_for_table at h
  cases hf : fieldsFor cols with
  | error e2 => rw [hf] at h; simp at h; rw [h]
  | ok fs => rw [hf] at h; simp at h

theorem gBA_cons (t : TableDefinition) (ts : List TableDefinition) :
    groupByAdjacent (t :: ts) =
      match groupByAdjacent ts with
      | [] => [(t.table_name, [t])]
      | (k, g) :: rest =>
        if t.table_name = k then (t.table_name, t :: g) :: rest
        else (t.table_name, [t]) :: (k, g) :: rest := rfl

theorem gBA_nil_iff (ts : List TableDefinition) :
    groupByAdjacent ts = [] ↔ ts = [] := by
  constructor
  · intro h
    cases ts with
    | nil => rfl
    | cons t ts2 =>
      exfalso
      rw [gBA_cons] at h
      split at h
      · simp at h
      · split at h <;> simp at h
  · intro h
    subst h
    rfl

theorem gBA_mem (ts : List TableDefinition) (t : TableDefinition) (ht : t ∈ ts) :
    ∃ g, (t.table_name, g) ∈ groupByAdjacent ts ∧ t ∈ g := by
  induction ts with
  | nil => simp at ht
  | cons t0 ts2 ih =>
    rcases hg : groupByAdjacent ts2 with _ | ⟨⟨k, g0⟩, rest⟩
    · have hts2 : ts2 = [] := (gBA_nil_iff ts2).mp hg
      subst hts2
      simp at ht
      subst ht
      exact ⟨[t], by simp [groupByAdjacent], by simp⟩
    · rcases List.mem_cons.mp ht with h1 | h2
      · subst h1
        by_cases hk : t.table_name = k
        · refine ⟨t :: g0, ?_, by simp⟩
          rw [gBA_cons, hg]
          simp only [if_pos hk]
          exact List.mem_cons_self _ _
        · refine ⟨[t], ?_, by simp⟩
          rw [gBA_cons, hg]
          simp only [if_neg hk]
          exact List.mem_cons_self _ _
      · rcases ih h2 with ⟨g, hgmem, htg⟩
        rw [hg] at hgmem
        rcases List.mem_cons.mp hgmem with hh | hh
        · by_cases hk : t0.table_name = k
          · refine ⟨t0 :: g, ?_, List.mem_cons_of_mem t0 htg⟩
            rw [gBA_cons, hg]
            simp only [if_pos hk]
            have : (t.table_name, g) = (k, g0) := hh
            have hkt : t.table_name = k := congrArg Prod.fst this
            have hgg : g = g0 := congrArg Prod.snd this
            subst hgg
            rw [hkt, ← hk]
            exact List.mem_cons_self _ _
          · refine ⟨g, ?_, htg⟩
            rw [gBA_cons, hg]
            simp only [if_neg hk]
            exact List.mem_cons_of_mem _ (hh ▸ List.mem_cons_self _ _)
        · by_cases hk : t0.table_name = k
          · refine ⟨g, ?_, htg⟩
            rw [gBA_cons, hg]
            simp only [if_pos hk]
            exact List.mem_cons_of_mem _ hh
          · refine ⟨g, ?_, htg⟩
            rw [gBA_cons, hg]
            simp only [if_neg hk]
            exact List.mem_cons_of_mem _ (List.mem_cons_of_mem _ hh)

theorem gBA_rev (ts : List TableDefinition) (k : String) (g : List TableDefinition)
    (hmem : (k, g) ∈ groupByAdjacent ts) (t : TableDefinition) (htg : t ∈ g) :
    t ∈ ts ∧ t.table_name = k := by
  induction ts generalizing k g with
  | nil => simp [groupByAdjacent] at hmem
  | cons t0 ts2 ih =>
    rcases hg : groupByAdjacent ts2 with _ | ⟨⟨k0, g0⟩, rest⟩
    · have hts2 : ts2 = [] := (gBA_nil_iff ts2).mp hg
      subst hts2
      simp [groupByAdjacent] at hmem
      rcases hmem with ⟨hk, hgg⟩
      subst hgg
      simp at htg
      subst htg
      exact ⟨List.mem_cons_self _ _, hk.symm⟩
    · have hred : groupByAdjacent (t0 :: ts2) =
          (if t0.table_name = k0 then (t0.table_name, t0 :: g0) :: rest
           else (t0.table_name, [t0]) :: (k0, g0) :: rest) := by
        rw [gBA_cons, hg]
      rw [hred] at hmem
      by_cases hk : t0.table_name = k0
      · rw [if_pos hk] at hmem
        rcases List.mem_cons.mp hmem with h1 | h2
        · have hkk : k = t0.table_name := congrArg Prod.fst h1
          have hgg : g = t0 :: g0 := congrArg Prod.snd h1
          subst hgg
          rcases List.mem_cons.mp htg with ht1 | ht2
          · subst ht1
            exact ⟨List.mem_cons_self _ _, hkk.symm⟩
          · have hin : (k0, g0) ∈ groupByAdjacent ts2 := by
              rw [hg]; exact List.mem_cons_self _ _
            rcases ih k0 g0 hin ht2 with ⟨hts, hname⟩
            exact ⟨List.mem_cons_of_mem _ hts, by rw [hname, ← hk, ← hkk]⟩
        · have hin : (k, g) ∈ groupByAdjacent ts2 := by
            rw [hg]; exact List.mem_cons_of_mem _ h2
          rcases ih k g hin htg with ⟨hts, hname⟩
          exact ⟨List.mem_cons_of_mem _ hts, hname⟩
      · rw [if_neg hk] at hmem
        rcases List.mem_cons.mp hmem with h1 | h2
        · have hkk : k = t0.table_name := congrArg Prod.fst h1
          have hgg : g = [t0] := congrArg Prod.snd h1
          subst hgg
          simp at htg
          subst htg
          exact ⟨List.mem_cons_self _ _, hkk.symm⟩
        · have hin : (k, g) ∈ groupByAdjacent ts2 := by rw [hg]; exact h2
          rcases ih k g hin htg with ⟨hts, hname⟩
          exact ⟨List.mem_cons_of_mem _ hts, hname⟩

theorem gBA_nonempty (ts : List TableDefinition) (k : String) (g : List TableDefinition)
    (hmem : (k, g) ∈ groupByAdjacent ts) : g ≠ [] := by
  induction ts generalizing k g with
  | nil => simp [groupByAdjacent] at hmem
  | cons t0 ts2 ih =>
    rcases hg : groupByAdjacent ts2 with _ | ⟨⟨k0, g0⟩, rest⟩
    · have hts2 : ts2 = [] := (gBA_nil_iff ts2).mp hg
      subst hts2
      simp [groupByAdjacent] at hmem
      simp [hmem.2]
    · have hred : groupByAdjacent (t0 :: ts2) =
          (if t0.table_name = k0 then (t0.table_name, t0 :: g0) :: rest
           else (t0.table_name, [t0]) :: (k0, g0) :: rest) := by
        rw [gBA_cons, hg]
      rw [hred] at hmem
      by_cases hk : t0.table_name = k0
      · rw [if_pos hk] at hmem
        rcases List.mem_cons.mp hmem with h1 | h2
        · have hgg : g = t0 :: g0 := congrArg Prod.snd h1
          simp [hgg]
        · exact ih k g (by rw [hg]; exact List.mem_cons_of_mem _ h2)
      · rw [if_neg hk] at hmem
        rcases List.mem_cons.mp hmem with h1 | h2
        · have hgg : g = [t0] := congrArg Prod.snd h1
          simp [hgg]
        · exact ih k g (by rw [hg]; exact h2)

/-- The column triples handed to `add_structs_for_table` for one group. -/
def groupColumns (g : String × List TableDefinition) : List (String × String × Bool) :=
  g.2.map (fun c => (c.column_name, c.udt_name, c.is_nullable))

theorem emitGroups_ok_names (gs : List (String × List TableDefinition))
    (scope defs : List StructDef) (h : emitGroups gs scope = .ok defs) :
    defs.map StructDef.name =
      scope.map StructDef.name ++
        ((gs.map Prod.fst).filter should_emit).map row_struct_name := by
  induction gs generalizing scope with
  | nil =>
    simp [emitGroups] at h
    subst h
    simp
  | cons g gs ih =>
    unfold emitGroups at h
    by_cases hse : should_emit g.1
    · rw [if_pos hse] at h
      cases hadd : add_structs_for_table g.1
          (g.2.map (fun c => (c.column_name, c.udt_name, c.is_nullable))) with
      | error e => rw [hadd] at h; simp at h
      | ok s =>
        rw [hadd] at h
        have hname : s.name = row_struct_name g.1 := (add_structs_ok _ _ _ hadd).1
        rw [ih (scope ++ [s]) h]
        simp [List.filter_cons, hse, hname]
    · rw [if_neg hse] at h
      rw [ih scope h]
      simp [List.filter_cons, hse]

theorem emitGroups_ok_group (gs : List (String × List TableDefinition))
    (scope defs : List StructDef) (h : emitGroups gs scope = .ok defs) :
    ∀ g ∈ gs, should_emit g.1 = true →
      ∃ s, add_structs_for_table g.1 (groupColumns g) = .ok s := by
  induction gs generalizing scope with
  | nil => intro g hg; simp at hg
  | cons g0 gs ih =>
    intro g hg hse
    unfold emitGroups at h
    by_cases hse0 : should_emit g0.1
    · rw [if_pos hse0] at h
      cases hadd : add_structs_for_table g0.1
          (g0.2.map (fun c => (c.column_name, c.udt_name, c.is_nullable))) with
      | error e => rw [hadd] at h; simp at h
      | ok s =>
        rw [hadd] at h
        rcases List.mem_cons.mp hg with h1 | h2
        · subst h1
          exact ⟨s, hadd⟩
        · exact ih (scope ++ [s]) h g h2 hse
    · rw [if_neg hse0] at h
      rcases List.mem_cons.mp hg with h1 | h2
      · subst h1
        exact absurd hse (by simpa using hse0)
      · exact ih scope h g h2 hse

theorem emitGroups_error (gs : List (String × List TableDefinition))
    (scope : List StructDef) (e : String) (h : emitGroups gs scope = .error e) :
    ∃ g ∈ gs, should_emit g.1 = true ∧
      add_structs_for_table g.1 (groupColumns g) = .error e := by
  induction gs generalizing scope with
  | nil => simp [emitGroups] at h
  | cons g0 gs ih =>
    unfold emitGroups at h
    by_cases hse0 : should_emit g0.1
    · rw [if_pos hse0] at h
      cases hadd : add_structs_for_table g0.1
          (g0.2.map (fun c => (c.column_name, c.udt_name, c.is_nullable))) with
      | error e2 =>
        rw [hadd] at h
        simp only [Except.error.injEq] at h
        exact ⟨g0, List.mem_cons_self _ _, hse0, h ▸ hadd⟩
      | ok s =>
        rw [hadd] at h
        rcases ih (scope ++ [s]) h with ⟨g, hg, hgse, hgerr⟩
        exact ⟨g, List.mem_cons_of_mem _ hg, hgse, hgerr⟩
    · rw [if_neg hse0] at h
      rcases ih scope h with ⟨g, hg, hgse, hgerr⟩
      exact ⟨g, List.mem_cons_of_mem _ hg, hgse, hgerr⟩

theorem firstSeen_cons (a : String) (l : List String) :
    firstSeen (a :: l) = a :: firstSeen (l.filter (fun b => b != a)) := by
  rw [firstSeen]

theorem filter_ne_of_not_mem (a : String) (l : List String) (h : a ∉ l) :
    l.filter (fun b => b != a) = l := by
  apply List.filter_eq_self.mpr
  intro b hb
  exact bne_iff_ne.mpr (fun hba => h (hba ▸ hb))

theorem gBA_head_name (ts : List TableDefinition) (k : String) (g : List TableDefinition)
    (rest : List (String × List TableDefinition))
    (h : groupByAdjacent ts = (k, g) :: rest) :
    ∃ t1 ts3, ts = t1 :: ts3 ∧ t1.table_name = k := by
  cases ts with
  | nil => simp [groupByAdjacent] at h
  | cons t1 ts3 =>
    refine ⟨t1, ts3, rfl, ?_⟩
    rcases hg : groupByAdjacent ts3 with _ | ⟨⟨k0, g0⟩, rest0⟩
    · rw [gBA_cons, hg] at h
      simp at h
      tauto
    · have hred : groupByAdjacent (t1 :: ts3) =
          (if t1.table_name = k0 then (t1.table_name, t1 :: g0) :: rest0
           else (t1.table_name, [t1]) :: (k0, g0) :: rest0) := by
        rw [gBA_cons, hg]
      rw [hred] at h
      split at h <;> simp at h <;> tauto
  
theorem gBA_keys_mem (ts : List TableDefinition) (x : String) :
    x ∈ (groupByAdjacent ts).map Prod.fst ↔ x ∈ ts.map TableDefinition.table_name := by
  constructor
  · intro h
    rcases List.mem_map.mp h with ⟨⟨k, g⟩, hmem, hfst⟩
    cases hgnil : g with
    | nil => exact absurd hgnil (gBA_nonempty ts k g hmem)
    | cons t1 grest =>
      rcases gBA_rev ts k g hmem t1 (hgnil ▸ List.mem_cons_self _ _) with ⟨hts, hname⟩
      exact List.mem_map.mpr ⟨t1, hts, by rw [hname]; exact hfst⟩
  · intro h
    rcases List.mem_map.mp h with ⟨t, hts, hname⟩
    rcases gBA_mem ts t hts with ⟨g, hmem, _⟩
    exact List.mem_map.mpr ⟨(t.table_name, g), hmem, hname⟩

theorem gBA_keys_firstSeen (ts : List TableDefinition)
    (hnd : ((groupByAdjacent ts).map Prod.fst).Nodup) :
    (groupByAdjacent ts).map Prod.fst = firstSeen (ts.map TableDefinition.table_name) := by
  induction ts with
  | nil => simp [groupByAdjacent, firstSeen]
  | cons t ts2 ih =>
    rcases hg : groupByAdjacent ts2 with _ | ⟨⟨k, g0⟩, rest⟩
    · have hts2 : ts2 = [] := (gBA_nil_iff ts2).mp hg
      subst hts2
      simp [groupByAdjacent, firstSeen]
    · have hred : groupByAdjacent (t :: ts2) =
          (if t.table_name = k then (t.table_name, t :: g0) :: rest
           else (t.table_name, [t]) :: (k, g0) :: rest) := by
        rw [gBA_cons, hg]
      by_cases hk : t.table_name = k
      · rw [hred, if_pos hk] at hnd ⊢
        rcases gBA_head_name ts2 k g0 rest hg with ⟨t1, ts3, hts2, hname⟩
        subst hts2
        have hkeys2 : (groupByAdjacent (t1 :: ts3)).map Prod.fst = k :: rest.map Prod.fst := by
          rw [hg]; rfl
        have hnd2 : ((groupByAdjacent (t1 :: ts3)).map Prod.fst).Nodup := by
          rw [hkeys2]
          simpa [hk] using hnd
        have ihh := ih hnd2
        rw [hkeys2] at ihh
        simp only [List.map_cons]
        rw [firstSeen_cons]
        simp only [List.map_cons] at ihh
        rw [firstSeen_cons] at ihh
        rw [hk, hname]
        rw [List.filter_cons]
        have : (k != k) = false := by simp
        rw [this]
        simp only [Bool.false_eq_true, if_neg (by simp : ¬False)]
        rw [hname] at ihh
        exact congrArg (k :: ·) (List.cons.injEq _ _ _ _ ▸ ihh).2
      · rw [hred, if_neg hk] at hnd ⊢
        simp only [List.map_cons]
        have hkeys2 : (groupByAdjacent ts2).map Prod.fst = k :: rest.map Prod.fst := by
          rw [hg]; rfl
        have hnotin : t.table_name ∉ (groupByAdjacent ts2).map Prod.fst := by
          intro hin
          rw [hkeys2] at hin
          have := List.nodup_cons.mp hnd
          exact this.1 (by simpa using hin)
        have hnd2 : ((groupByAdjacent ts2).map Prod.fst).Nodup := by
          rw [hkeys2]
          exact (List.nodup_cons.mp hnd).2
        have ihh := ih hnd2
        rw [firstSeen_cons]
        have hnotnames : t.table_name ∉ ts2.map TableDefinition.table_name :=
          fun hin => hnotin ((gBA_keys_mem ts2 t.table_name).mpr hin)
        rw [filter_ne_of_not_mem _ _ hnotnames]
        rw [← ihh, hkeys2]

/-- A group with its rows projected away from `ordinal_position`. -/
def eraseGroup (g : String × List TableDefinition) :
    String × List (String × String × String × Bool) :=
  (g.1, g.2.map eraseOrdinal)

theorem groupColumns_eq_of_erase (g1 g2 : String × List TableDefinition)
    (h : g1.2.map eraseOrdinal = g2.2.map eraseOrdinal) :
    groupColumns g1 = groupColumns g2 := by
  have e1 : groupColumns g1 = (g1.2.map eraseOrdinal).map Prod.snd := by
    rw [groupColumns, List.map_map]; rfl
  have e2 : groupColumns g2 = (g2.2.map eraseOrdinal).map Prod.snd := by
    rw [groupColumns, List.map_map]; rfl
  rw [e1, e2, h]

theorem gBA_erase (ts1 ts2 : List TableDefinition)
    (h : ts1.map eraseOrdinal = ts2.map eraseOrdinal) :
    (groupByAdjacent ts1).map eraseGroup = (groupByAdjacent ts2).map eraseGroup := by
  induction ts1 generalizing ts2 with
  | nil =>
    have : ts2 = [] := by
      cases ts2 with
      | nil => rfl
      | cons t ts => simp at h
    subst this
    rfl
  | cons t1 ts1 ih =>
    cases ts2 with
    | nil => simp at h
    | cons t2 ts2 =>
      simp only [List.map_cons, List.cons.injEq] at h
      rcases h with ⟨hhead, htail⟩
      have hname : t1.table_name = t2.table_name := congrArg Prod.fst hhead
      have ihh := ih ts2 htail
      rcases hg1 : groupByAdjacent ts1 with _ | ⟨⟨k1, g1⟩, rest1⟩
      · rw [hg1] at ihh
        have hg2 : groupByAdjacent ts2 = [] := by
          cases hg2 : groupByAdjacent ts2 with
          | nil => rfl
          | cons p rest => rw [hg2] at ihh; simp at ihh
        rw [gBA_cons, hg1, gBA_cons, hg2]
        simp [eraseGroup, hname, hhead]
      · rw [hg1] at ihh
        cases hg2 : groupByAdjacent ts2 with
        | nil => rw [hg2] at ihh; simp at ihh
        | cons p2 rest2 =>
          rcases p2 with ⟨k2, g2⟩
          rw [hg2] at ihh
          simp only [List.map_cons, List.cons.injEq, eraseGroup, Prod.mk.injEq] at ihh
          rcases ihh with ⟨⟨hk, hgg⟩, hrest⟩
          have hred1 : groupByAdjacent (t1 :: ts1) =
              (if t1.table_name = k1 then (t1.table_name, t1 :: g1) :: rest1
               else (t1.table_name, [t1]) :: (k1, g1) :: rest1) := by
            rw [gBA_cons, hg1]
          have hred2 : groupByAdjacent (t2 :: ts2) =
              (if t2.table_name = k2 then (t2.table_name, t2 :: g2) :: rest2
               else (t2.table_name, [t2]) :: (k2, g2) :: rest2) := by
            rw [gBA_cons, hg2]
          rw [hred1, hred2]
          by_cases hk1 : t1.table_name = k1
          · rw [if_pos hk1, if_pos (by rw [← hname, hk1, hk] : t2.table_name = k2)]
            simp only [List.map_cons, List.cons.injEq, eraseGroup, Prod.mk.injEq]
            refine ⟨⟨hname, ?_⟩, hrest⟩
            rw [hhead, hgg]
            exact ⟨rfl, rfl⟩
          · rw [if_neg hk1, if_neg (by rw [← hname, ← hk]; exact hk1)]
            simp only [List.map_cons, List.cons.injEq, eraseGroup, Prod.mk.injEq]
            exact ⟨⟨hname, by simp [hhead]⟩, ⟨hk, hgg⟩, hrest⟩

theorem emitGroups_erase (gs1 gs2 : List (String × List TableDefinition))
    (h : gs1.map eraseGroup = gs2.map eraseGroup) (scope : List StructDef) :
    emitGroups gs1 scope = emitGroups gs2 scope := by
  induction gs1 generalizing gs2 scope with
  | nil =>
    have : gs2 = [] := by
      cases gs2 with
      | nil => rfl
      | cons g gs => simp at h
    subst this
    rfl
  | cons g1 gs1 ih =>
    cases gs2 with
    | nil => simp at h
    | cons g2 gs2 =>
      simp only [List.map_cons, List.cons.injEq, eraseGroup, Prod.mk.injEq] at h
      rcases h with ⟨⟨hk, hrows⟩, htail⟩
      have hcols : groupColumns g1 = groupColumns g2 := groupColumns_eq_of_erase g1 g2 hrows
      show emitGroups (g1 :: gs1) scope = emitGroups (g2 :: gs2) scope
      unfold emitGroups
      rw [hk]
      by_cases hse : should_emit g2.1
      · rw [if_pos hse, if_pos hse]
        have : add_structs_for_table g2.1
            (g1.2.map (fun c => (c.column_name, c.udt_name, c.is_nullable))) =
            add_structs_for_table g2.1
            (g2.2.map (fun c => (c.column_name, c.udt_name, c.is_nullable))) := by
          show add_structs_for_table g2.1 (groupColumns g1) =
            add_structs_for_table g2.1 (groupColumns g2)
          rw [hcols]
        rw [this]
        cases add_structs_for_table g2.1
            (g2.2.map (fun c => (c.column_name, c.udt_name, c.is_nullable))) with
        | error e => rfl
        | ok s => exact ih gs2 htail (scope ++ [s])
      · rw [if_neg hse, if_neg hse]
        exact ih gs2 htail scope

theorem do_it_erase (ts1 ts2 : List TableDefinition)
    (h : ts1.map eraseOrdinal = ts2.map eraseOrdinal) :
    do_it ts1 = do_it ts2 := by
  unfold do_it
  exact emitGroups_erase _ _ (gBA_erase ts1 ts2 h) []

/-- C1: the Type Mapper sends each of the thirteen recognized native
type names to exactly its documented Rust base type, and every string
outside that vocabulary to the unrecoverable UnknownTypeError naming
the input, never to a default. -/
theorem typeMapper_vocabulary :
    pg_type_to_rs_type "int8" = .ok "i64" ∧
    pg_type_to_rs_type "int4" = .ok "i32" ∧
    pg_type_to_rs_type "int2" = .ok "i16" ∧
    pg_type_to_rs_type "text" = .ok "String" ∧
    pg_type_to_rs_type "varchar" = .ok "String" ∧
    pg_type_to_rs_type "jsonb" = .ok "sqlx::Json" ∧
    pg_type_to_rs_type "timestamptz" = .ok "chrono::DateTime<chrono::Utc>" ∧
    pg_type_to_rs_type "date" = .ok "chrono::NaiveDate" ∧
    pg_type_to_rs_type "float4" = .ok "f32" ∧
    pg_type_to_rs_type "float8" = .ok "f64" ∧
    pg_type_to_rs_type "uuid" = .ok "uuid::Uuid" ∧
    pg_type_to_rs_type "boolean" = .ok "bool" ∧
    pg_type_to_rs_type "bytea" = .ok "Vec<u8>" ∧
    ∀ s : String, s ∉ pgVocab →
      pg_type_to_rs_type s = .error ("Unknown type: " ++ s) :=
  ⟨rfl, rfl, rfl, rfl, rfl, rfl, rfl, rfl, rfl, rfl, rfl, rfl, rfl,
   pg_not_mem_error⟩

/-- Witness for C1 at the concrete out-of-vocabulary input `money`. -/
theorem typeMapper_vocabulary_witness :
    ("money" : String) ∉ pgVocab ∧
      pg_type_to_rs_type "money" = .error ("Unknown type: " ++ "money") :=
  ⟨by decide,
   typeMapper_vocabulary.2.2.2.2.2.2.2.2.2.2.2.2.2 "money" (by decide)⟩

/-- C2 counterexample: a column with the out-of-vocabulary native type
`money` that belongs to the filtered-out `_sqlx_migrations` table does
not abort the run — generation completes successfully, so the claim
"any column in the input sequence with an unknown type aborts the run"
fails as stated. -/
theorem unknownType_filtered_no_abort :
    pg_type_to_rs_type "money" = .error ("Unknown type: " ++ "money") ∧
    do_it [TableDefinition.mk "_sqlx_migrations" "version" "money" false 1] = .ok [] :=
  ⟨rfl, rfl⟩

/-- C2 (amended): if any column of a table that passes the Table Filter
has a native type outside the mapper's vocabulary, the run aborts: the
result is an error (so no type definitions at all are output) and the
error message names the native type of such a failing column. -/
theorem unknownType_aborts (tables : List TableDefinition)
    (hbad : ∃ t ∈ tables, should_emit t.table_name = true ∧
      pg_type_to_rs_type t.udt_name = .error ("Unknown type: " ++ t.udt_name)) :
    ∃ u, do_it tables = .error ("Unknown type: " ++ u) ∧
      ∃ t2 ∈ tables, t2.udt_name = u ∧ should_emit t2.table_name = true ∧
        pg_type_to_rs_type u = .error ("Unknown type: " ++ u) := by
  rcases hbad with ⟨t, hmem, hse, herr⟩
  have hnotok : ∀ defs, ¬ do_it tables = .ok defs := by
    intro defs hok
    rcases gBA_mem tables t hmem with ⟨g, hgmem, htg⟩
    rcases emitGroups_ok_group (groupByAdjacent tables) [] defs hok
        (t.table_name, g) hgmem hse with ⟨s, hadd⟩
    have hfok := (add_structs_ok _ _ _ hadd).2
    rcases fieldsFor_ok_mem _ _ hfok (t.column_name, t.udt_name, t.is_nullable)
        (List.mem_map_of_mem _ htg) with ⟨r, hr⟩
    rw [herr] at hr
    simp at hr
  cases hdo : do_it tables with
  | ok defs => exact absurd hdo (hnotok defs)
  | error e =>
    rcases emitGroups_error (groupByAdjacent tables) [] e hdo with ⟨g, hgmem, hgse, hgadd⟩
    have hferr := add_structs_error _ _ _ hgadd
    rcases fieldsFor_error _ _ hferr with ⟨c, hc, hcerr⟩
    rcases List.mem_map.mp hc with ⟨t2, ht2, hct⟩
    have hpair : (g.1, g.2) ∈ groupByAdjacent tables := by
      rw [Prod.mk.eta]; exact hgmem
    rcases gBA_rev tables g.1 g.2 hpair t2 ht2 with ⟨ht2mem, ht2name⟩
    have hcu : c.2.1 = t2.udt_name := by rw [← hct]
    have he2 : e = "Unknown type: " ++ c.2.1 := pg_error_eq c.2.1 e hcerr
    have he : e = "Unknown type: " ++ t2.udt_name := by rw [he2, hcu]
    refine ⟨t2.udt_name, ?_, t2, ht2mem, rfl, ?_, ?_⟩
    · rw [he]
    · rw [ht2name]; exact hgse
    · rw [← hcu, ← he2]
      exact hcerr

/-- Witness for C2 (amended) at a concrete schema containing an
unrecognized `money` column in an emitted table. -/
theorem unknownType_aborts_witness :
    ∃ u, do_it [TableDefinition.mk "users" "id" "int4" false 1,
                TableDefinition.mk "users" "balance" "money" false 2] =
        .error ("Unknown type: " ++ u) ∧
      ∃ t2 ∈ [TableDefinition.mk "users" "id" "int4" false 1,
              TableDefinition.mk "users" "balance" "money" false 2],
        t2.udt_name = u ∧ should_emit t2.table_name = true ∧
          pg_type_to_rs_type u = .error ("Unknown type: " ++ u) :=
  unknownType_aborts _
    ⟨TableDefinition.mk "users" "balance" "money" false 2, by decide, by decide, rfl⟩

/-- C3: in every emitted struct, a field's type is the `Option`-wrapped
base type exactly when the column's nullability flag is true, and the
plain base type exactly when it is false; the two forms never coincide,
so each field takes exactly one of them. -/
theorem nullability_wrapping (table_name : String)
    (cols : List (String × String × Bool)) (s : StructDef)
    (h : add_structs_for_table table_name cols = .ok s) :
    List.Forall₂ (fun (c : String × String × Bool) (f : StructField) =>
      ∃ base, pg_type_to_rs_type c.2.1 = .ok base ∧
        ((c.2.2 = true ∧ f.ty = "Option<" ++ base ++ ">" ∧ f.ty ≠ base) ∨
         (c.2.2 = false ∧ f.ty = base ∧ f.ty ≠ "Option<" ++ base ++ ">")))
      cols s.fields :=
  fieldsFor_nullability cols s.fields (add_structs_ok _ _ _ h).2

/-- Witness for C3 at a concrete two-column table with one non-nullable
and one nullable column. -/
theorem nullability_wrapping_witness :
    List.Forall₂ (fun (c : String × String × Bool) (f : StructField) =>
      ∃ base, pg_type_to_rs_type c.2.1 = .ok base ∧
        ((c.2.2 = true ∧ f.ty = "Option<" ++ base ++ ">" ∧ f.ty ≠ base) ∨
         (c.2.2 = false ∧ f.ty = base ∧ f.ty ≠ "Option<" ++ base ++ ">")))
      [("id", "int4", false), ("email", "text", true)]
      (StructDef.mk "Users" [StructField.mk "id" "i32",
                             StructField.mk "email" "Option<String>"]).fields :=
  nullability_wrapping "users" [("id", "int4", false), ("email", "text", true)]
    (StructDef.mk "Users" [StructField.mk "id" "i32",
                           StructField.mk "email" "Option<String>"]) rfl

/-- C4: every emitted struct has exactly one field per input column of
its table, field names equal to the column names, in exactly the input
(ordinal) order, and is named by the Name Normalizer. -/
theorem fields_match_columns (table_name : String)
    (cols : List (String × String × Bool)) (s : StructDef)
    (h : add_structs_for_table table_name cols = .ok s) :
    s.name = row_struct_name table_name ∧
    s.fields.length = cols.length ∧
    s.fields.map StructField.name = cols.map Prod.fst := by
  rcases add_structs_ok _ _ _ h with ⟨hname, hfields⟩
  rcases fieldsFor_names _ _ hfields with ⟨hmap, hlen⟩
  exact ⟨hname, hlen, hmap⟩

/-- Witness for C4 at a concrete two-column table. -/
theorem fields_match_columns_witness :
    (StructDef.mk "Users" [StructField.mk "id" "i32",
                           StructField.mk "email" "Option<String>"]).name =
        row_struct_name "users" ∧
    (StructDef.mk "Users" [StructField.mk "id" "i32",
                           StructField.mk "email" "Option<String>"]).fields.length =
        [("id", "int4", false), ("email", "text", true)].length ∧
    (StructDef.mk "Users" [StructField.mk "id" "i32",
        StructField.mk "email" "Option<String>"]).fields.map StructField.name =
      [("id", "int4", false), ("email", "text", true)].map Prod.fst :=
  fields_match_columns "users" [("id", "int4", false), ("email", "text", true)]
    (StructDef.mk "Users" [StructField.mk "id" "i32",
                           StructField.mk "email" "Option<String>"]) rfl

/-- C5: when equal table names are contiguous in the input (as the
upstream `ORDER BY table_name` query guarantees), the emitted struct
names appear exactly in the order in which their table names first
appear in the input, restricted to tables passing the filter — never
alphabetical or otherwise reordered. -/
theorem output_order_firstSeen (tables : List TableDefinition) (defs : List StructDef)
    (hsorted : ((groupByAdjacent tables).map Prod.fst).Nodup)
    (h : do_it tables = .ok defs) :
    defs.map StructDef.name =
      ((firstSeen (tables.map TableDefinition.table_name)).filter should_emit).map
        row_struct_name := by
  have h1 := emitGroups_ok_names (groupByAdjacent tables) [] defs h
  rw [h1]
  simp only [List.map_nil, List.nil_append]
  rw [gBA_keys_firstSeen tables hsorted]

/-- Witness for C5 at a concrete input with tables `a` then `b`. -/
theorem output_order_firstSeen_witness :
    ((groupByAdjacent [TableDefinition.mk "a" "x" "int4" false 1,
                       TableDefinition.mk "b" "y" "text" false 1]).map Prod.fst).Nodup ∧
    do_it [TableDefinition.mk "a" "x" "int4" false 1,
           TableDefinition.mk "b" "y" "text" false 1] =
      .ok [StructDef.mk "A" [StructField.mk "x" "i32"],
           StructDef.mk "B" [StructField.mk "y" "String"]] ∧
    [StructDef.mk "A" [StructField.mk "x" "i32"],
     StructDef.mk "B" [StructField.mk "y" "String"]].map StructDef.name =
      ((firstSeen ([TableDefinition.mk "a" "x" "int4" false 1,
                    TableDefinition.mk "b" "y" "text" false 1].map
          TableDefinition.table_name)).filter should_emit).map row_struct_name :=
  ⟨by decide, rfl,
   output_order_firstSeen _ _ (by decide) rfl⟩

/-- C6: the Table Filter excludes exactly the reserved name
`_sqlx_migrations` and includes every other table name. -/
theorem tableFilter_exact :
    should_emit "_sqlx_migrations" = false ∧
    ∀ s : String, s ≠ "_sqlx_migrations" → should_emit s = true :=
  ⟨by decide, should_emit_of_ne⟩

/-- Witness for C6: a casing variant of the reserved name, and an
ordinary table name, are both included. -/
theorem tableFilter_exact_witness :
    should_emit "_SQLX_MIGRATIONS" = true ∧ should_emit "orders" = true :=
  ⟨tableFilter_exact.2 "_SQLX_MIGRATIONS" (by decide),
   tableFilter_exact.2 "orders" (by decide)⟩

/-- C7: the Name Normalizer produces the class-cased table name as the
record type name and that name with the fixed suffix `Input` appended
as the input-variant name. -/
theorem nameNormalizer_forms :
    row_struct_name "customer_orders" = "CustomerOrders" ∧
    input_row_struct_name "customer_orders" = "CustomerOrdersInput" ∧
    ∀ s : String, row_struct_name s = to_class_case s ∧
      input_row_struct_name s = row_struct_name s ++ "Input" :=
  ⟨by decide, by decide, fun _ => ⟨rfl, rfl⟩⟩

/-- C8: the Name Normalizer is deterministic and idempotent: applying
the class-casing transformation to its own output changes nothing. -/
theorem nameNormalizer_idem_det :
    (∀ s : String, to_class_case (to_class_case s) = to_class_case s) ∧
    (∀ s t : String, s = t → to_class_case s = to_class_case t) :=
  ⟨to_class_case_idem, fun _ _ h => congrArg to_class_case h⟩

/-- Witness for C8 at the concrete name `customer_orders`. -/
theorem nameNormalizer_idem_det_witness :
    to_class_case (to_class_case "customer_orders") = to_class_case "customer_orders" ∧
    to_class_case "customer_orders" = to_class_case "customer_orders" :=
  ⟨nameNormalizer_idem_det.1 "customer_orders",
   nameNormalizer_idem_det.2 "customer_orders" "customer_orders" rfl⟩

/-- C9: grouping is by adjacency only — on an input where table `a`
appears in non-adjacent rows, the aggregator produces two distinct
groups keyed `a` (groups fragment) and the pipeline emits two structs
named `A` instead of merging them. -/
theorem grouping_fragments_on_noncontiguous :
    (groupByAdjacent [TableDefinition.mk "a" "x" "int4" false 1,
                      TableDefinition.mk "b" "y" "text" false 1,
                      TableDefinition.mk "a" "z" "int8" false 2]).map Prod.fst =
      ["a", "b", "a"] ∧
    do_it [TableDefinition.mk "a" "x" "int4" false 1,
           TableDefinition.mk "b" "y" "text" false 1,
           TableDefinition.mk "a" "z" "int8" false 2] =
      .ok [StructDef.mk "A" [StructField.mk "x" "i32"],
           StructDef.mk "B" [StructField.mk "y" "String"],
           StructDef.mk "A" [StructField.mk "z" "i64"]] :=
  ⟨by decide, rfl⟩

/-- C10: the generated output is independent of the `ordinal_position`
values: two inputs equal in every attribute except ordinal positions
produce identical output (the positions are never inspected; only the
physical row order matters). -/
theorem output_independent_of_ordinals (ts1 ts2 : List TableDefinition)
    (h : ts1.map eraseOrdinal = ts2.map eraseOrdinal) :
    do_it ts1 = do_it ts2 :=
  do_it_erase ts1 ts2 h

/-- Witness for C10: the same schema with two different (even
duplicate) ordinal numberings yields the same output. -/
theorem output_independent_of_ordinals_witness :
    do_it [TableDefinition.mk "users" "id" "int4" false 1,
           TableDefinition.mk "users" "email" "text" true 2] =
    do_it [TableDefinition.mk "users" "id" "int4" false 7,
           TableDefinition.mk "users" "email" "text" true 7] :=
  output_independent_of_ordinals _ _ (by decide)
